import Mathlib

/- Verification of the crossCalib seismometer calibration module.

   The numerical core of src/crossCalib.py is embedded shallowly: rational
   numbers stand for floating-point reals, pairs of rationals for numpy
   complex values, and Option models a raised numpy error (ValueError on
   an empty argmin or argmax, a broadcasting error on an elementwise
   division of incompatible shapes).

   External library routines are not code of this repository; they enter
   the embedding in one of two ways, each noted where it happens:
   - numpy fft, the obspy highpass filter and the obspy simulate
     deconvolution are taken as explicit function parameters of the
     embedded whiteCalib and crossCalib, since no claim depends on their
     numeric output values, only on facts the spec states about them
     (such as length preservation), which appear as hypotheses;
   - numpy fftfreq and the obspy smoothing routine are modelled from the
     spec by concrete definitions, as their shape or value behavior does
     enter the claims. -/

/-- Complex number with rational components, standing for a numpy complex
    value. -/
structure QC where
  re : ℚ
  im : ℚ
deriving DecidableEq, Repr

instance : Zero QC := ⟨⟨0, 0⟩⟩

instance : Add QC := ⟨fun a b => ⟨a.re + b.re, a.im + b.im⟩⟩

instance : Inhabited QC := ⟨0⟩

/-- Complex division; a zero denominator yields the junk value 0 where
    numpy would produce inf or nan (the spec accepts silent inf or nan
    propagation there, and no claim looks at that case). -/
def QC.div (a b : QC) : QC :=
  let d := b.re ^ 2 + b.im ^ 2
  ⟨(a.re * b.re + a.im * b.im) / d, (a.im * b.re - a.re * b.im) / d⟩

/-- Scaling of a complex value by a real (rational) constant. -/
def QC.scale (k : ℚ) (z : QC) : QC := ⟨k * z.re, k * z.im⟩

/-- Complex modulus, as numpy absolute on a complex value. -/
noncomputable def QC.abs (z : QC) : ℝ := Real.sqrt ((z.re : ℝ) ^ 2 + (z.im : ℝ) ^ 2)

/-- Obspy trace, reduced to the capabilities the core uses: the ordered
    sample sequence and the sampling rate. -/
structure Trace where
  data : List ℚ
  sampling_rate : ℚ
deriving DecidableEq, Repr, Inhabited

/-- Opaque poles and zeros instrument model; the core never inspects it. -/
structure Paz where
  poles : List QC
  zeros : List QC
  gain : ℚ
deriving DecidableEq, Repr, Inhabited

/-- Modelled from the spec: numpy fftfreq, the standard FFT frequency-bin
    convention (bin 0 is DC, ascending positive frequencies, then negative
    frequencies of descending magnitude), for n bins with sample spacing d. -/
def fftfreq (n : ℕ) (d : ℚ) : List ℚ :=
  (List.range n).map fun k =>
    if k < (n + 1) / 2 then (k : ℚ) / (n * d) else ((k : ℚ) - n) / (n * d)

/-- Numpy amax: the maximum of a list, raising (none) on an empty list. -/
def amax : List ℚ → Option ℚ
  | [] => none
  | a :: l =>
    match amax l with
    | none => some a
    | some m => some (max a m)

/-- Numpy argmin: index of the first minimum, raising (none) on an empty
    list. -/
def argminIdx : List ℚ → Option ℕ
  | [] => none
  | a :: l =>
    match argminIdx l with
    | none => some 0
    | some j => if l.getD j 0 < a then some (j + 1) else some 0

/-- Numpy argmax: index of the first maximum, raising (none) on an empty
    list. -/
def argmaxIdx : List ℚ → Option ℕ
  | [] => none
  | a :: l =>
    match argmaxIdx l with
    | none => some 0
    | some j => if a < l.getD j 0 then some (j + 1) else some 0

/-- Numpy where on the condition that the absolute value of a frequency is
    below the bound c: the list of indices satisfying the condition. -/
def npwhere (f : List ℚ) (c : ℚ) : List ℕ :=
  (List.range f.length).filter fun i => |f.getD i 0| < c

/-- Numpy fancy indexing s[idxs]: raises (none) when an index is out of
    range. -/
def fancyIdx {α : Type} (s : List α) : List ℕ → Option (List α)
  | [] => some []
  | i :: is => do
    let a ← s.get? i
    let rest ← fancyIdx s is
    pure (a :: rest)

/-- The two frequency axes and their paired spectra, as manipulated by the
    frequency aligner of whiteCalib. -/
structure APair where
  f1 : List ℚ
  s1 : List QC
  f2 : List ℚ
  s2 : List QC
deriving DecidableEq, Repr, Inhabited

/-- The mismatch test of src/crossCalib.py line 50: the axes differ in
    length, or the numpy sum of their elementwise differences is nonzero. -/
def mismatchB (f1 f2 : List ℚ) : Bool :=
  decide (f1.length ≠ f2.length) ||
    decide ((List.zipWith (fun a b => a - b) f1 f2).sum ≠ 0)

/-- Lines 52 to 58 of src/crossCalib.py: compute fmax as the smaller of the
    two maxima of absolute frequencies, then keep in each axis and its
    paired spectrum only the indices where the absolute frequency is
    strictly below fmax. -/
def filterStage (p : APair) : Option APair := do
  let m1 ← amax (p.f1.map fun x => |x|)
  let m2 ← amax (p.f2.map fun x => |x|)
  let fmax := min m1 m2
  let i1 := npwhere p.f1 fmax
  let f1 ← fancyIdx p.f1 i1
  let s1 ← fancyIdx p.s1 i1
  let i2 := npwhere p.f2 fmax
  let f2 ← fancyIdx p.f2 i2
  let s2 ← fancyIdx p.s2 i2
  pure ⟨f1, s1, f2, s2⟩

/-- Lines 60 to 73 of src/crossCalib.py: if the axes still differ in
    length, delete from the longer axis (and its spectrum, in lock-step)
    the element at the current argmax index, then the element at the
    current argmin index of the updated axis. This runs once, not in a
    loop. -/
def trimStage (p : APair) : Option APair :=
  if p.f2.length < p.f1.length then do
    let i ← argmaxIdx p.f1
    let f1 := p.f1.eraseIdx i
    let s1 := p.s1.eraseIdx i
    let j ← argminIdx f1
    pure ⟨f1.eraseIdx j, s1.eraseIdx j, p.f2, p.s2⟩
  else if p.f1.length < p.f2.length then do
    let i ← argmaxIdx p.f2
    let f2 := p.f2.eraseIdx i
    let s2 := p.s2.eraseIdx i
    let j ← argminIdx f2
    pure ⟨p.f1, p.s1, f2.eraseIdx j, s2.eraseIdx j⟩
  else pure p

/-- The whole reconciliation branch of whiteCalib (lines 52 to 73). -/
def alignStep (p : APair) : Option APair := (filterStage p).bind trimStage

/-- Numpy elementwise division of the response spectrum by the monitor
    spectrum, with numpy broadcasting of a length-one operand; on any other
    length mismatch numpy raises (none). -/
def npDiv (a b : List QC) : Option (List QC) :=
  if a.length = b.length then some (List.zipWith QC.div a b)
  else if a.length = 1 then some (b.map fun x => QC.div (a.headD 0) x)
  else if b.length = 1 then some (a.map fun x => QC.div x (b.headD 0))
  else none

/-- Average of a list of complex values (0 on the empty list). -/
def qcAvg (l : List QC) : QC := QC.scale (1 / (l.length : ℚ)) (l.foldl (· + ·) 0)

/-- Modelled from the spec: the external obspy smoothing routine, a
    same-length moving average over genuinely complex values; a window of
    0 or 1 degenerates to the identity, boundary windows are
    edge-truncated. -/
def smoothMA (x : List QC) (w : ℕ) : List QC :=
  if w ≤ 1 then x
  else (List.range x.length).map fun i => qcAvg ((x.drop (i - w / 2)).take w)

/-- Resolution of the smoothing window: the explicit option when present,
    else the source default int(len(f1) * 0.0001). -/
def smoothWin (sO : Option ℕ) (n : ℕ) : ℕ :=
  match sO with
  | some w => w
  | none => n / 10000

/-- Transfer function estimator, embedding whiteCalib of src/crossCalib.py
    lines 37 to 83. The fft parameter stands for the external numpy fft
    routine. The returned Bool is the mismatch warning; none in the second
    component models a raised numpy error. -/
def whiteCalib (fft : List ℚ → List QC) (monitor_trace response_trace : Trace)
    (smoothOpt : Option ℕ) : Bool × Option (List QC × List ℚ) :=
  let mSpectre := fft monitor_trace.data
  let rSpectre := fft response_trace.data
  let f1 := fftfreq mSpectre.length (1 / monitor_trace.sampling_rate)
  let f2 := fftfreq rSpectre.length (1 / response_trace.sampling_rate)
  let warned := mismatchB f1 f2
  let aligned := if warned then alignStep ⟨f1, mSpectre, f2, rSpectre⟩
                 else some ⟨f1, mSpectre, f2, rSpectre⟩
  (warned, aligned.bind fun p =>
    (npDiv p.s2 p.s1).map fun H =>
      (smoothMA H (smoothWin smoothOpt p.f1.length), p.f1))

/-- Recognized options of crossCalib. An absent deconvolve key and an
    explicit false are conflated, as the source tests both at once. -/
structure CrossOpts where
  ffilter : Option ℚ
  deconvolve : Bool
  paz : Option Paz
  smooth : Option ℕ
deriving Inhabited

/-- Application of the optional zero-phase highpass filter of crossCalib,
    hp standing for the external obspy filter capability. -/
def applyFfilter (hp : ℚ → Trace → Trace) (ff : Option ℚ) (t : Trace) : Trace :=
  match ff with
  | some fr => hp fr t
  | none => t

/-- Deconvolver and preprocessor, embedding crossCalib of src/crossCalib.py
    lines 85 to 105. The parameters hp and sim stand for the external
    obspy highpass filter and simulate (deconvolution) capabilities. The
    first returned Bool reports the missing-paz error message. -/
def crossCalib (fft : List ℚ → List QC) (hp : ℚ → Trace → Trace)
    (sim : Paz → Trace → Trace) (monitor_trace response_trace : Trace)
    (o : CrossOpts) : Bool × (Bool × Option (List QC × List ℚ)) :=
  let in_trace := applyFfilter hp o.ffilter monitor_trace
  let out_trace := applyFfilter hp o.ffilter response_trace
  let (pazErr, in_trace) :=
    if o.deconvolve then
      match o.paz with
      | some p => (false, sim p in_trace)
      | none => (true, in_trace)
    else (false, in_trace)
  (pazErr, whiteCalib fft in_trace out_trace o.smooth)

/-- Recognized options of Hparameters (plotting is excluded from the core
    by the spec and changes no numeric output). -/
structure HOpts where
  fnorm : Option ℚ
  fmin : Option ℚ
deriving Inhabited

/-- Parameter extractor, embedding Hparameters of src/crossCalib.py lines
    107 to 149: inorm and imin locate the bins closest to the
    normalization and minimum search frequencies, indx minimizes the
    absolute real part of H over the window from imin to inorm, and the
    returned triple is the corner frequency, the damping ratio and the
    sensitivity. A none return models a raised numpy error. -/
noncomputable def Hparameters (H : List QC) (f : List ℚ) (o : HOpts) :
    Option (ℚ × ℝ × ℝ) := do
  let fn := o.fnorm.getD 1
  let fm := o.fmin.getD (1 / 1000)
  let inorm ← argminIdx (f.map fun x => |x - fn|)
  let imin ← argminIdx (f.map fun x => |x - fm|)
  let j ← argminIdx (((H.drop imin).take (inorm - imin)).map fun z => |z.re|)
  let indx := j + imin
  let hnorm ← H.get? inorm
  let fc ← f.get? indx
  let hidx ← H.get? indx
  let amp := QC.abs hidx / QC.abs hnorm
  pure (fc, 1 / (2 * amp), QC.abs hnorm)

/- Object-level wrappers. The python functions receive references to
   caller-owned mutable trace objects and begin by copying them; the obspy
   filter and simulate methods mutate their receiver in place. To settle
   the frame claim, a store of trace objects is made explicit: a reference
   is an index into the store, copy appends a fresh object, and an
   in-place method replaces the entry at the reference it targets. -/

/-- Store-level whiteCalib: line 39 and 40 of the source copy the two
    caller traces, every later operation reads the copies only. -/
def whiteCalibS (fft : List ℚ → List QC) (σ : List Trace) (mi ri : ℕ)
    (smoothOpt : Option ℕ) :
    List Trace × (Bool × Option (List QC × List ℚ)) :=
  let m := σ.getD mi default
  let r := σ.getD ri default
  let σ := σ ++ [m, r]
  (σ, whiteCalib fft m r smoothOpt)

/-- Store-level crossCalib: lines 87 and 88 copy the caller traces, the
    in-place filter and simulate calls target the copies only, and
    whiteCalib then copies again. -/
def crossCalibS (fft : List ℚ → List QC) (hp : ℚ → Trace → Trace)
    (sim : Paz → Trace → Trace) (σ : List Trace) (mi ri : ℕ) (o : CrossOpts) :
    List Trace × (Bool × (Bool × Option (List QC × List ℚ))) :=
  let inRef := σ.length
  let σ1 := σ ++ [σ.getD mi default]
  let outRef := σ1.length
  let σ2 := σ1 ++ [σ.getD ri default]
  let σ3 := match o.ffilter with
    | some fr =>
      let σa := σ2.set inRef (hp fr (σ2.getD inRef default))
      σa.set outRef (hp fr (σa.getD outRef default))
    | none => σ2
  let (pazErr, σ4) :=
    match o.deconvolve, o.paz with
    | true, some p => (false, σ3.set inRef (sim p (σ3.getD inRef default)))
    | true, none => (true, σ3)
    | false, _ => (false, σ3)
  let m := σ4.getD inRef default
  let r := σ4.getD outRef default
  let σ5 := σ4 ++ [m, r]
  (σ5, (pazErr, whiteCalib fft m r o.smooth))

/- Concrete instantiation gadgets for witnesses and counterexamples: a
   simple length-preserving stand-in for the external fft, and identity
   stand-ins for the external filter and simulate capabilities. -/

/-- Concrete length-preserving spectrum builder used to instantiate the
    fft parameter on concrete inputs. -/
def fftId : List ℚ → List QC := fun x => x.map fun a => ⟨a, 0⟩

/-- Concrete stand-in for the external highpass filter capability. -/
def hpId : ℚ → Trace → Trace := fun _ t => t

/-- Concrete stand-in for the external simulate capability. -/
def simId : Paz → Trace → Trace := fun _ t => t

/-- Decides whether a returned transfer function exists and has its H and
    f components of equal length. -/
def retLenOk : Option (List QC × List ℚ) → Bool
  | none => false
  | some (H, f) => H.length == f.length

/-- Decides whether an alignment result exists and has its two trimmed
    frequency axes of equal length. -/
def alignedOk : Option APair → Bool
  | none => false
  | some p => p.f1.length == p.f2.length

/-- Decides whether a filtering result exists and has its two axes of
    equal length, or differing by exactly two on either side. -/
def diffOk : Option APair → Bool
  | none => false
  | some p =>
    p.f1.length == p.f2.length || p.f1.length == p.f2.length + 2 ||
      p.f2.length == p.f1.length + 2

/-- The single trimming pass the source performs on the longer side: drop
    the element at the current argmax index, then at the argmin index of
    the updated axis, the paired spectrum trimmed in lock-step. -/
def dropMaxMin (f : List ℚ) (s : List QC) : List ℚ × List QC :=
  let i := (argmaxIdx f).getD 0
  let f1 := f.eraseIdx i
  let s1 := s.eraseIdx i
  let j := (argminIdx f1).getD 0
  (f1.eraseIdx j, s1.eraseIdx j)

/-- The reconciliation bound of line 52: the smaller of the two maxima of
    absolute frequencies (0 in the impossible empty case, in which the
    source raises before it is used). -/
def fmaxD (f1 f2 : List ℚ) : ℚ :=
  min ((amax (f1.map fun x => |x|)).getD 0) ((amax (f2.map fun x => |x|)).getD 0)

/- Support lemmas about the embedded list primitives. -/

theorem fftfreq_length (n : ℕ) (d : ℚ) : (fftfreq n d).length = n := by
  simp [fftfreq]

theorem amax_of_ne_nil : ∀ {l : List ℚ}, l ≠ [] → ∃ m, amax l = some m
  | [], h => absurd rfl h
  | a :: l, _ => by
    cases hl : amax l with
    | none => exact ⟨a, by simp [amax, hl]⟩
    | some m => exact ⟨max a m, by simp [amax, hl]⟩

theorem argminIdx_lt : ∀ {l : List ℚ} {i : ℕ}, argminIdx l = some i → i < l.length := by
  intro l
  induction l with
  | nil => intro i h; simp [argminIdx] at h
  | cons a l ih =>
    intro i h
    cases hl : argminIdx l with
    | none =>
      simp only [argminIdx, hl, Option.some.injEq] at h
      simp only [List.length_cons]
      omega
    | some j =>
      have hj := ih hl
      simp only [argminIdx, hl] at h
      by_cases hc : l.getD j 0 < a
      · rw [if_pos hc, Option.some.injEq] at h
        simp only [List.length_cons]
        omega
      · rw [if_neg hc, Option.some.injEq] at h
        simp only [List.length_cons]
        omega

theorem argminIdx_of_ne_nil : ∀ {l : List ℚ}, l ≠ [] → ∃ i, argminIdx l = some i
  | [], h => absurd rfl h
  | a :: l, _ => by
    cases hl : argminIdx l with
    | none => exact ⟨0, by simp only [argminIdx, hl]⟩
    | some j =>
      by_cases hc : l.getD j 0 < a
      · exact ⟨j + 1, by simp only [argminIdx, hl, if_pos hc]⟩
      · exact ⟨0, by simp only [argminIdx, hl, if_neg hc]⟩

theorem argmaxIdx_lt : ∀ {l : List ℚ} {i : ℕ}, argmaxIdx l = some i → i < l.length := by
  intro l
  induction l with
  | nil => intro i h; simp [argmaxIdx] at h
  | cons a l ih =>
    intro i h
    cases hl : argmaxIdx l with
    | none =>
      simp only [argmaxIdx, hl, Option.some.injEq] at h
      simp only [List.length_cons]
      omega
    | some j =>
      have hj := ih hl
      simp only [argmaxIdx, hl] at h
      by_cases hc : a < l.getD j 0
      · rw [if_pos hc, Option.some.injEq] at h
        simp only [List.length_cons]
        omega
      · rw [if_neg hc, Option.some.injEq] at h
        simp only [List.length_cons]
        omega

theorem argmaxIdx_of_ne_nil : ∀ {l : List ℚ}, l ≠ [] → ∃ i, argmaxIdx l = some i
  | [], h => absurd rfl h
  | a :: l, _ => by
    cases hl : argmaxIdx l with
    | none => exact ⟨0, by simp only [argmaxIdx, hl]⟩
    | some j =>
      by_cases hc : a < l.getD j 0
      · exact ⟨j + 1, by simp only [argmaxIdx, hl, if_pos hc]⟩
      · exact ⟨0, by simp only [argmaxIdx, hl, if_neg hc]⟩

theorem npwhere_cons (a : ℚ) (f : List ℚ) (c : ℚ) :
    npwhere (a :: f) c =
      (if |a| < c then [0] else []) ++ (npwhere f c).map (· + 1) := by
  unfold npwhere
  rw [show (a :: f).length = f.length + 1 by simp, List.range_succ_eq_map,
    List.filter_cons]
  have h2 : List.filter (fun i => decide (|(a :: f).getD i 0| < c))
      ((List.range f.length).map Nat.succ) =
      List.map (fun x => x + 1)
        (List.filter (fun i => decide (|f.getD i 0| < c)) (List.range f.length)) := by
    rw [List.filter_map]
    have h3 : List.filter ((fun i => decide (|(a :: f).getD i 0| < c)) ∘ Nat.succ)
        (List.range f.length) =
        List.filter (fun i => decide (|f.getD i 0| < c)) (List.range f.length) := by
      apply List.filter_congr
      intro i _
      simp [Function.comp, List.getD_cons_succ]
    rw [h3]
  rw [h2]
  by_cases hc : |a| < c
  · simp [List.getD_cons_zero, hc]
  · simp [List.getD_cons_zero, hc]

theorem fancyIdx_map_succ {α : Type} (b : α) (s : List α) :
    ∀ is, fancyIdx (b :: s) (is.map (· + 1)) = fancyIdx s is := by
  intro is
  induction is with
  | nil => simp [fancyIdx]
  | cons i is ih =>
    simp only [List.map_cons, fancyIdx]
    rw [show (b :: s).get? (i + 1) = s.get? i by simp [List.get?_eq_getElem?]]
    rw [ih]

theorem fancyIdx_cons {α : Type} (s : List α) (i : ℕ) (is : List ℕ) :
    fancyIdx s (i :: is) =
      (s.get? i).bind fun a => (fancyIdx s is).bind fun r => some (a :: r) := rfl

theorem fancyIdx_npwhere {α : Type} (c : ℚ) :
    ∀ (f : List ℚ) (s : List α), s.length = f.length →
      fancyIdx s (npwhere f c) =
        some (((f.zip s).filter fun p => decide (|p.1| < c)).map Prod.snd) := by
  intro f
  induction f with
  | nil =>
    intro s h
    have hs : s = [] := List.eq_nil_of_length_eq_zero h
    subst hs
    simp [npwhere, fancyIdx]
  | cons a f ih =>
    intro s h
    cases s with
    | nil => simp at h
    | cons b s =>
      have hs : s.length = f.length := by simpa using h
      rw [npwhere_cons]
      by_cases hc : |a| < c
      · rw [if_pos hc]
        simp only [List.singleton_append]
        rw [fancyIdx_cons]
        simp only [List.get?_cons_zero, Option.some_bind]
        rw [fancyIdx_map_succ, ih s hs]
        simp [hc]
      · rw [if_neg hc]
        simp only [List.nil_append]
        rw [fancyIdx_map_succ, ih s hs]
        simp [hc]

theorem zip_self_filter_map_snd (q : ℚ → Bool) :
    ∀ f : List ℚ,
      ((f.zip f).filter fun p => q p.1).map Prod.snd = f.filter fun a => q a := by
  intro f
  induction f with
  | nil => simp
  | cons a f ih =>
    simp only [List.zip_cons_cons, List.filter_cons]
    by_cases hq : q a = true
    · simp only [hq, if_true, List.map_cons, ih]
    · rw [Bool.not_eq_true] at hq
      simp only [hq, Bool.false_eq_true, if_false, ih]

theorem zip_filter_snd_length {α : Type} (q : ℚ → Bool) :
    ∀ (f : List ℚ) (s : List α), s.length = f.length →
      (((f.zip s).filter fun p => q p.1).map Prod.snd).length =
        (f.filter fun a => q a).length := by
  intro f
  induction f with
  | nil => intro s h; simp
  | cons a f ih =>
    intro s h
    cases s with
    | nil => simp at h
    | cons b s =>
      have hs : s.length = f.length := by simpa using h
      simp only [List.zip_cons_cons, List.filter_cons]
      by_cases hq : q a = true
      · simp only [hq, if_true, List.map_cons, List.length_cons, ih s hs]
      · rw [Bool.not_eq_true] at hq
        simp only [hq, Bool.false_eq_true, if_false, ih s hs]

theorem zipWith_sub_self_sum : ∀ f : List ℚ, (List.zipWith (fun a b => a - b) f f).sum = 0 := by
  intro f
  induction f with
  | nil => simp
  | cons a f ih => simp [ih]

theorem mismatchB_self (f : List ℚ) : mismatchB f f = false := by
  simp [mismatchB, zipWith_sub_self_sum]

theorem mismatchB_false_length {f1 f2 : List ℚ} (h : mismatchB f1 f2 = false) :
    f1.length = f2.length := by
  simp [mismatchB] at h
  exact h.1

theorem smoothMA_length (x : List QC) (w : ℕ) : (smoothMA x w).length = x.length := by
  unfold smoothMA
  split
  · rfl
  · simp

theorem npDiv_of_length_eq {a b : List QC} (h : a.length = b.length) :
    npDiv a b = some (List.zipWith QC.div a b) := by
  simp [npDiv, h]

theorem zipWith_div_length_eq {a b : List QC} (h : a.length = b.length) :
    (List.zipWith QC.div a b).length = b.length := by
  rw [List.length_zipWith _ a b]
  omega

theorem filterStage_spec (f1 : List ℚ) (s1 : List QC) (f2 : List ℚ) (s2 : List QC)
    (hs1 : s1.length = f1.length) (hs2 : s2.length = f2.length)
    (h1 : f1 ≠ []) (h2 : f2 ≠ []) :
    filterStage ⟨f1, s1, f2, s2⟩ = some ⟨
      f1.filter fun a => decide (|a| < fmaxD f1 f2),
      ((f1.zip s1).filter fun p => decide (|p.1| < fmaxD f1 f2)).map Prod.snd,
      f2.filter fun a => decide (|a| < fmaxD f1 f2),
      ((f2.zip s2).filter fun p => decide (|p.1| < fmaxD f1 f2)).map Prod.snd⟩ := by
  obtain ⟨m1, hm1⟩ := amax_of_ne_nil (l := f1.map fun x => |x|) (by simpa using h1)
  obtain ⟨m2, hm2⟩ := amax_of_ne_nil (l := f2.map fun x => |x|) (by simpa using h2)
  have hfm : fmaxD f1 f2 = min m1 m2 := by
    unfold fmaxD
    rw [hm1, hm2]
    rfl
  rw [hfm]
  simp only [filterStage, hm1, hm2, Option.bind_eq_bind, Option.some_bind,
    fancyIdx_npwhere (min m1 m2) f1 f1 rfl,
    fancyIdx_npwhere (min m1 m2) f1 s1 hs1,
    fancyIdx_npwhere (min m1 m2) f2 f2 rfl,
    fancyIdx_npwhere (min m1 m2) f2 s2 hs2,
    Option.pure_def]
  rw [zip_self_filter_map_snd (fun a => decide (|a| < min m1 m2)) f1,
    zip_self_filter_map_snd (fun a => decide (|a| < min m1 m2)) f2]

theorem filterStage_none_of_nil_left (p : APair) (h : p.f1 = []) :
    filterStage p = none := by
  simp [filterStage, h, amax]

theorem filterStage_none_of_nil_right (p : APair) (h : p.f2 = []) (m1 : ℚ)
    (hm1 : amax (p.f1.map fun x => |x|) = some m1) :
    filterStage p = none := by
  simp [filterStage, h, amax, hm1]

theorem trimStage_of_eq {p : APair} (h : p.f1.length = p.f2.length) :
    trimStage p = some p := by
  simp [trimStage, h]

theorem trimStage_left (f1 : List ℚ) (s1 : List QC) (f2 : List ℚ) (s2 : List QC)
    (hlen : f2.length + 2 ≤ f1.length) (hs1 : s1.length = f1.length) :
    trimStage ⟨f1, s1, f2, s2⟩ =
      some ⟨(dropMaxMin f1 s1).1, (dropMaxMin f1 s1).2, f2, s2⟩ ∧
    (dropMaxMin f1 s1).1.length + 2 = f1.length ∧
    (dropMaxMin f1 s1).2.length + 2 = s1.length := by
  have hne : f1 ≠ [] := by
    intro hx
    rw [hx] at hlen
    simp at hlen
  obtain ⟨i, hi⟩ := argmaxIdx_of_ne_nil hne
  have hilt : i < f1.length := argmaxIdx_lt hi
  have hlen1 : (f1.eraseIdx i).length = f1.length - 1 := List.length_eraseIdx_of_lt hilt
  have hne2 : f1.eraseIdx i ≠ [] := by
    apply List.ne_nil_of_length_pos
    omega
  obtain ⟨j, hj⟩ := argminIdx_of_ne_nil hne2
  have hjlt : j < (f1.eraseIdx i).length := argminIdx_lt hj
  have hd1 : (dropMaxMin f1 s1).1 = (f1.eraseIdx i).eraseIdx j := by
    simp [dropMaxMin, hi, hj]
  have hd2 : (dropMaxMin f1 s1).2 = (s1.eraseIdx i).eraseIdx j := by
    simp [dropMaxMin, hi, hj]
  refine ⟨?_, ?_, ?_⟩
  · simp only [trimStage]
    rw [if_pos (show f2.length < f1.length by omega)]
    rw [hi]
    simp only [Option.bind_eq_bind, Option.some_bind]
    rw [hj]
    simp only [Option.some_bind, Option.pure_def]
    rw [hd1, hd2]
  · rw [hd1, List.length_eraseIdx_of_lt hjlt, hlen1]
    omega
  · rw [hd2]
    have hilt2 : i < s1.length := by omega
    have hlen2 : (s1.eraseIdx i).length = s1.length - 1 :=
      List.length_eraseIdx_of_lt hilt2
    have hjlt2 : j < (s1.eraseIdx i).length := by omega
    rw [List.length_eraseIdx_of_lt hjlt2, hlen2]
    omega

theorem trimStage_right (f1 : List ℚ) (s1 : List QC) (f2 : List ℚ) (s2 : List QC)
    (hlen : f1.length + 2 ≤ f2.length) (hs2 : s2.length = f2.length) :
    trimStage ⟨f1, s1, f2, s2⟩ =
      some ⟨f1, s1, (dropMaxMin f2 s2).1, (dropMaxMin f2 s2).2⟩ ∧
    (dropMaxMin f2 s2).1.length + 2 = f2.length ∧
    (dropMaxMin f2 s2).2.length + 2 = s2.length := by
  have hne : f2 ≠ [] := by
    intro hx
    rw [hx] at hlen
    simp at hlen
  obtain ⟨i, hi⟩ := argmaxIdx_of_ne_nil hne
  have hilt : i < f2.length := argmaxIdx_lt hi
  have hlen1 : (f2.eraseIdx i).length = f2.length - 1 := List.length_eraseIdx_of_lt hilt
  have hne2 : f2.eraseIdx i ≠ [] := by
    apply List.ne_nil_of_length_pos
    omega
  obtain ⟨j, hj⟩ := argminIdx_of_ne_nil hne2
  have hjlt : j < (f2.eraseIdx i).length := argminIdx_lt hj
  have hd1 : (dropMaxMin f2 s2).1 = (f2.eraseIdx i).eraseIdx j := by
    simp [dropMaxMin, hi, hj]
  have hd2 : (dropMaxMin f2 s2).2 = (s2.eraseIdx i).eraseIdx j := by
    simp [dropMaxMin, hi, hj]
  refine ⟨?_, ?_, ?_⟩
  · simp only [trimStage]
    rw [if_neg (show ¬f2.length < f1.length by omega),
      if_pos (show f1.length < f2.length by omega)]
    rw [hi]
    simp only [Option.bind_eq_bind, Option.some_bind]
    rw [hj]
    simp only [Option.some_bind, Option.pure_def]
    rw [hd1, hd2]
  · rw [hd1, List.length_eraseIdx_of_lt hjlt, hlen1]
    omega
  · rw [hd2]
    have hilt2 : i < s2.length := by omega
    have hlen2 : (s2.eraseIdx i).length = s2.length - 1 :=
      List.length_eraseIdx_of_lt hilt2
    have hjlt2 : j < (s2.eraseIdx i).length := by omega
    rw [List.length_eraseIdx_of_lt hjlt2, hlen2]
    omega

theorem whiteCalib_of_no_mismatch (fft : List ℚ → List QC) (m r : Trace)
    (sO : Option ℕ)
    (h : mismatchB (fftfreq (fft m.data).length (1 / m.sampling_rate))
        (fftfreq (fft r.data).length (1 / r.sampling_rate)) = false) :
    whiteCalib fft m r sO = (false,
      (npDiv (fft r.data) (fft m.data)).map fun H =>
        (smoothMA H (smoothWin sO
            (fftfreq (fft m.data).length (1 / m.sampling_rate)).length),
          fftfreq (fft m.data).length (1 / m.sampling_rate))) := by
  simp only [whiteCalib, h, Bool.false_eq_true, if_false, Option.some_bind]

theorem whiteCalib_of_mismatch (fft : List ℚ → List QC) (m r : Trace)
    (sO : Option ℕ)
    (h : mismatchB (fftfreq (fft m.data).length (1 / m.sampling_rate))
        (fftfreq (fft r.data).length (1 / r.sampling_rate)) = true) :
    whiteCalib fft m r sO = (true,
      (alignStep ⟨fftfreq (fft m.data).length (1 / m.sampling_rate), fft m.data,
        fftfreq (fft r.data).length (1 / r.sampling_rate), fft r.data⟩).bind fun p =>
        (npDiv p.s2 p.s1).map fun H =>
          (smoothMA H (smoothWin sO p.f1.length), p.f1)) := by
  simp only [whiteCalib, h, if_true]

theorem retLenOk_of_eq {p : APair} (sO : Option ℕ)
    (hp1 : p.s1.length = p.f1.length) (hp2 : p.s2.length = p.f2.length)
    (hpf : p.f1.length = p.f2.length) :
    retLenOk ((npDiv p.s2 p.s1).map fun H =>
      (smoothMA H (smoothWin sO p.f1.length), p.f1)) = true := by
  rw [npDiv_of_length_eq (by omega)]
  simp only [Option.map_some', retLenOk, smoothMA_length, beq_iff_eq]
  rw [List.length_zipWith _ p.s2 p.s1]
  omega

theorem filterStage_pairing (f1 : List ℚ) (s1 : List QC) (f2 : List ℚ)
    (s2 : List QC) (q : APair)
    (hs1 : s1.length = f1.length) (hs2 : s2.length = f2.length)
    (h : filterStage ⟨f1, s1, f2, s2⟩ = some q) :
    q.s1.length = q.f1.length ∧ q.s2.length = q.f2.length := by
  have hne1 : f1 ≠ [] := by
    intro hx
    rw [filterStage_none_of_nil_left _ hx] at h
    cases h
  have hne2 : f2 ≠ [] := by
    intro hx
    obtain ⟨m1, hm1⟩ := amax_of_ne_nil (l := f1.map fun x => |x|) (by simpa using hne1)
    rw [filterStage_none_of_nil_right _ hx m1 hm1] at h
    cases h
  rw [filterStage_spec f1 s1 f2 s2 hs1 hs2 hne1 hne2] at h
  have hq := (Option.some.inj h).symm
  subst hq
  exact ⟨zip_filter_snd_length (fun a => decide (|a| < fmaxD f1 f2)) f1 s1 hs1,
    zip_filter_snd_length (fun a => decide (|a| < fmaxD f1 f2)) f2 s2 hs2⟩

theorem alignStep_bind_len (f1 : List ℚ) (s1 : List QC) (f2 : List ℚ)
    (s2 : List QC) (sO : Option ℕ)
    (hs1 : s1.length = f1.length) (hs2 : s2.length = f2.length)
    (hfs : diffOk (filterStage ⟨f1, s1, f2, s2⟩) = true) :
    retLenOk ((alignStep ⟨f1, s1, f2, s2⟩).bind fun p =>
      (npDiv p.s2 p.s1).map fun H =>
        (smoothMA H (smoothWin sO p.f1.length), p.f1)) = true ∧
    alignedOk (alignStep ⟨f1, s1, f2, s2⟩) = true := by
  cases hq : filterStage ⟨f1, s1, f2, s2⟩ with
  | none => rw [hq] at hfs; simp [diffOk] at hfs
  | some q =>
    obtain ⟨hp1, hp2⟩ := filterStage_pairing f1 s1 f2 s2 q hs1 hs2 hq
    have hal : alignStep ⟨f1, s1, f2, s2⟩ = trimStage q := by
      rw [alignStep, hq]
      rfl
    rw [hq] at hfs
    rw [hal]
    obtain ⟨g1, t1, g2, t2⟩ := q
    have hp1' : t1.length = g1.length := hp1
    have hp2' : t2.length = g2.length := hp2
    simp only [diffOk] at hfs
    have hfs' : (g1.length = g2.length ∨ g1.length = g2.length + 2) ∨
        g2.length = g1.length + 2 := by simpa using hfs
    rcases hfs' with (hc | hc) | hc
    · rw [trimStage_of_eq (p := ⟨g1, t1, g2, t2⟩) hc]
      refine ⟨?_, ?_⟩
      · simp only [Option.some_bind]
        exact retLenOk_of_eq (p := ⟨g1, t1, g2, t2⟩) sO hp1' hp2' hc
      · simp only [alignedOk, beq_iff_eq]
        exact hc
    · obtain ⟨htrim, hlen1, hlen2⟩ := trimStage_left g1 t1 g2 t2 (by omega) hp1'
      rw [htrim]
      refine ⟨?_, ?_⟩
      · simp only [Option.some_bind]
        refine retLenOk_of_eq (p := ⟨(dropMaxMin g1 t1).1, (dropMaxMin g1 t1).2, g2, t2⟩)
          sO ?_ ?_ ?_
        · show (dropMaxMin g1 t1).2.length = (dropMaxMin g1 t1).1.length
          omega
        · show t2.length = g2.length
          exact hp2'
        · show (dropMaxMin g1 t1).1.length = g2.length
          omega
      · simp only [alignedOk, beq_iff_eq]
        show (dropMaxMin g1 t1).1.length = g2.length
        omega
    · obtain ⟨htrim, hlen1, hlen2⟩ := trimStage_right g1 t1 g2 t2 (by omega) hp2'
      rw [htrim]
      refine ⟨?_, ?_⟩
      · simp only [Option.some_bind]
        refine retLenOk_of_eq (p := ⟨g1, t1, (dropMaxMin g2 t2).1, (dropMaxMin g2 t2).2⟩)
          sO ?_ ?_ ?_
        · show t1.length = g1.length
          exact hp1'
        · show (dropMaxMin g2 t2).2.length = (dropMaxMin g2 t2).1.length
          omega
        · show g1.length = (dropMaxMin g2 t2).1.length
          omega
      · simp only [alignedOk, beq_iff_eq]
        show g1.length = (dropMaxMin g2 t2).1.length
        omega

/-- Claim C1 (amended): for every pair of input traces for which the
    mismatch path, when taken, leaves post-filter frequency axes of equal
    length or differing by exactly two, whiteCalib returns a pair (H, f)
    with len H = len f, and in the mismatch case the two trimmed
    frequency axes have equal length after alignment. The original claim,
    which asserts this for every pair of traces including axes differing
    by more than one bin per side after filtering, fails: the single
    trimming pass cannot reconcile a post-filter difference above two and
    the elementwise spectral division then raises. -/
theorem whiteCalib_length_invariant (fft : List ℚ → List QC) (m r : Trace)
    (sO : Option ℕ)
    (h : mismatchB (fftfreq (fft m.data).length (1 / m.sampling_rate))
          (fftfreq (fft r.data).length (1 / r.sampling_rate)) = true →
        diffOk (filterStage ⟨fftfreq (fft m.data).length (1 / m.sampling_rate),
          fft m.data,
          fftfreq (fft r.data).length (1 / r.sampling_rate),
          fft r.data⟩) = true) :
    retLenOk (whiteCalib fft m r sO).2 = true ∧
    (mismatchB (fftfreq (fft m.data).length (1 / m.sampling_rate))
        (fftfreq (fft r.data).length (1 / r.sampling_rate)) = true →
      alignedOk (alignStep ⟨fftfreq (fft m.data).length (1 / m.sampling_rate),
        fft m.data,
        fftfreq (fft r.data).length (1 / r.sampling_rate),
        fft r.data⟩) = true) := by
  have hl1 : (fftfreq (fft m.data).length (1 / m.sampling_rate)).length
      = (fft m.data).length := fftfreq_length _ _
  have hl2 : (fftfreq (fft r.data).length (1 / r.sampling_rate)).length
      = (fft r.data).length := fftfreq_length _ _
  by_cases hm : mismatchB (fftfreq (fft m.data).length (1 / m.sampling_rate))
      (fftfreq (fft r.data).length (1 / r.sampling_rate)) = true
  · obtain ⟨h1, h2⟩ := alignStep_bind_len
      (fftfreq (fft m.data).length (1 / m.sampling_rate)) (fft m.data)
      (fftfreq (fft r.data).length (1 / r.sampling_rate)) (fft r.data)
      sO hl1.symm hl2.symm (h hm)
    refine ⟨?_, fun _ => h2⟩
    rw [whiteCalib_of_mismatch fft m r sO hm]
    exact h1
  · have hm' : mismatchB (fftfreq (fft m.data).length (1 / m.sampling_rate))
        (fftfreq (fft r.data).length (1 / r.sampling_rate)) = false := by
      simpa using hm
    refine ⟨?_, fun hc => absurd hc hm⟩
    rw [whiteCalib_of_no_mismatch fft m r sO hm']
    have hlen : (fft r.data).length = (fft m.data).length := by
      have h12 := mismatchB_false_length hm'
      omega
    show retLenOk ((npDiv (fft r.data) (fft m.data)).map _) = true
    rw [npDiv_of_length_eq hlen]
    simp only [Option.map_some', retLenOk, smoothMA_length, beq_iff_eq]
    rw [List.length_zipWith _ (fft r.data) (fft m.data)]
    omega

theorem fancyIdx_npwhere_self (c : ℚ) (f : List ℚ) :
    fancyIdx f (npwhere f c) = some (f.filter fun a => decide (|a| < c)) := by
  rw [fancyIdx_npwhere c f f rfl, zip_self_filter_map_snd (fun a => decide (|a| < c)) f]

theorem zipWith_div_scale (k : ℚ) : ∀ l : List QC,
    List.zipWith QC.div (l.map (QC.scale k)) l = l.map fun z => QC.div (QC.scale k z) z := by
  intro l
  induction l with
  | nil => simp
  | cons a l ih => simp [ih]

theorem QC.ne_zero_iff {z : QC} : z ≠ 0 ↔ ¬(z.re = 0 ∧ z.im = 0) := by
  cases z with
  | mk a b =>
    simp only [ne_eq, show (0 : QC) = ⟨0, 0⟩ from rfl, QC.mk.injEq]

theorem QC.div_scale_self (k : ℚ) (z : QC) (hz : z ≠ 0) :
    QC.div (QC.scale k z) z = ⟨k, 0⟩ := by
  have hzc := QC.ne_zero_iff.mp hz
  have hd : z.re ^ 2 + z.im ^ 2 ≠ 0 := by
    intro h0
    apply hzc
    constructor <;> nlinarith [sq_nonneg z.re, sq_nonneg z.im]
  unfold QC.div QC.scale
  have hre : (k * z.re * z.re + k * z.im * z.im) / (z.re ^ 2 + z.im ^ 2) = k := by
    rw [div_eq_iff hd]
    ring
  have him : (k * z.im * z.re - k * z.re * z.im) / (z.re ^ 2 + z.im ^ 2) = 0 := by
    rw [div_eq_iff hd]
    ring
  simp only []
  rw [QC.mk.injEq]
  exact ⟨hre, him⟩

theorem get?_append_left {α : Type} (l l2 : List α) (i : ℕ) (h : i < l.length) :
    (l ++ l2).get? i = l.get? i := by
  simp [List.get?_eq_getElem?, List.getElem?_append_left h]

theorem get?_set_ne {α : Type} (l : List α) (k i : ℕ) (a : α) (h : k ≠ i) :
    (l.set k a).get? i = l.get? i := by
  simp [List.get?_eq_getElem?, List.getElem?_set_ne h]

theorem get?_eq_some_getD {α : Type} (l : List α) (i : ℕ) (d : α)
    (h : i < l.length) : l.get? i = some (l.getD i d) := by
  simp [List.get?_eq_getElem?, List.getD, List.getElem?_eq_getElem h]

theorem filterStage_f1_sublist {p q : APair} (h : filterStage p = some q) :
    List.Sublist q.f1 p.f1 := by
  cases hm1 : amax (p.f1.map fun x => |x|) with
  | none => simp [filterStage, hm1] at h
  | some m1 =>
    cases hm2 : amax (p.f2.map fun x => |x|) with
    | none => simp [filterStage, hm1, hm2] at h
    | some m2 =>
      simp only [filterStage, hm1, hm2, Option.bind_eq_bind, Option.some_bind,
        fancyIdx_npwhere_self (min m1 m2) p.f1] at h
      cases hs1 : fancyIdx p.s1 (npwhere p.f1 (min m1 m2)) with
      | none => rw [hs1] at h; simp at h
      | some s1v =>
        rw [hs1] at h
        simp only [Option.some_bind,
          fancyIdx_npwhere_self (min m1 m2) p.f2] at h
        cases hs2 : fancyIdx p.s2 (npwhere p.f2 (min m1 m2)) with
        | none => rw [hs2] at h; simp at h
        | some s2v =>
          rw [hs2] at h
          simp only [Option.some_bind, Option.pure_def, Option.some.injEq] at h
          subst h
          exact List.filter_sublist p.f1

theorem trimStage_f1_sublist {p q : APair} (h : trimStage p = some q) :
    List.Sublist q.f1 p.f1 := by
  unfold trimStage at h
  by_cases h1 : p.f2.length < p.f1.length
  · rw [if_pos h1] at h
    cases hi : argmaxIdx p.f1 with
    | none => rw [hi] at h; simp at h
    | some i =>
      rw [hi] at h
      simp only [Option.bind_eq_bind, Option.some_bind] at h
      cases hj : argminIdx (p.f1.eraseIdx i) with
      | none => rw [hj] at h; simp at h
      | some j =>
        rw [hj] at h
        simp only [Option.some_bind, Option.pure_def, Option.some.injEq] at h
        subst h
        exact ((p.f1.eraseIdx i).eraseIdx_sublist j).trans (p.f1.eraseIdx_sublist i)
  · rw [if_neg h1] at h
    by_cases h2 : p.f1.length < p.f2.length
    · rw [if_pos h2] at h
      cases hi : argmaxIdx p.f2 with
      | none => rw [hi] at h; simp at h
      | some i =>
        rw [hi] at h
        simp only [Option.bind_eq_bind, Option.some_bind] at h
        cases hj : argminIdx (p.f2.eraseIdx i) with
        | none => rw [hj] at h; simp at h
        | some j =>
          rw [hj] at h
          simp only [Option.some_bind, Option.pure_def, Option.some.injEq] at h
          subst h
          exact List.Sublist.refl _
    · rw [if_neg h2] at h
      simp only [Option.pure_def, Option.some.injEq] at h
      subst h
      exact List.Sublist.refl _

theorem alignStep_f1_sublist {p q : APair} (h : alignStep p = some q) :
    List.Sublist q.f1 p.f1 := by
  rw [alignStep] at h
  cases hf : filterStage p with
  | none => rw [hf] at h; simp at h
  | some g =>
    rw [hf] at h
    rw [show (some g).bind trimStage = trimStage g from rfl] at h
    exact (trimStage_f1_sublist h).trans (filterStage_f1_sublist hf)

/-- Claim C6: when the two frequency axes are equal in length and agree at
    every index, whiteCalib takes the no-mismatch path: no warning is
    emitted, no filtering or trimming happens, and the result is the raw
    elementwise division of the untouched spectra together with the
    untouched frequency axis, only the final smoothing of H applied. -/
theorem whiteCalib_identical_axes (fft : List ℚ → List QC) (m r : Trace)
    (sO : Option ℕ)
    (h : fftfreq (fft m.data).length (1 / m.sampling_rate)
        = fftfreq (fft r.data).length (1 / r.sampling_rate)) :
    whiteCalib fft m r sO = (false,
      (npDiv (fft r.data) (fft m.data)).map fun H =>
        (smoothMA H (smoothWin sO
            (fftfreq (fft m.data).length (1 / m.sampling_rate)).length),
          fftfreq (fft m.data).length (1 / m.sampling_rate))) :=
  whiteCalib_of_no_mismatch fft m r sO (by rw [h]; exact mismatchB_self _)

/-- Claim C7 (amended): the reconciliation path is taken exactly when the
    axes differ in length or the numpy sum of their elementwise differences
    is nonzero; an elementwise difference whose differences cancel to a
    zero sum is not detected. When the condition holds, the warning is
    emitted and each axis keeps, in lock-step with its spectrum, exactly
    the indices with absolute frequency strictly below
    fmax = min(max|f1|, max|f2|). -/
theorem aligner_mismatch_trigger (f1 : List ℚ) (s1 : List QC) (f2 : List ℚ)
    (s2 : List QC)
    (hs1 : s1.length = f1.length) (hs2 : s2.length = f2.length)
    (h1 : f1 ≠ []) (h2 : f2 ≠ []) :
    (mismatchB f1 f2 = true ↔
      f1.length ≠ f2.length ∨ (List.zipWith (fun a b => a - b) f1 f2).sum ≠ 0) ∧
    filterStage ⟨f1, s1, f2, s2⟩ = some ⟨
      f1.filter fun a => decide (|a| < fmaxD f1 f2),
      ((f1.zip s1).filter fun p => decide (|p.1| < fmaxD f1 f2)).map Prod.snd,
      f2.filter fun a => decide (|a| < fmaxD f1 f2),
      ((f2.zip s2).filter fun p => decide (|p.1| < fmaxD f1 f2)).map Prod.snd⟩ :=
  ⟨by simp [mismatchB], filterStage_spec f1 s1 f2 s2 hs1 hs2 h1 h2⟩

/-- Claim C4 (amended): after the filtering, whichever axis is longer than
    the other by at least two, the source performs exactly one trimming
    pass on that longer side (first branch, lines 60 to 66, when the first
    axis is longer; second branch, lines 67 to 73, when the second axis
    is): it drops the element at the current argmax index and then the
    element at the argmin index of the updated axis, the paired spectrum
    trimmed in lock-step, and leaves the shorter side untouched. Exactly
    one pair is dropped whatever the difference is, so the lengths match
    afterwards only when the post-filter difference was exactly two (the
    original claim of repeated dropping until the lengths match fails). -/
theorem trim_single_pass (f1 : List ℚ) (s1 : List QC) (f2 : List ℚ)
    (s2 : List QC)
    (hs1 : s1.length = f1.length) (hs2 : s2.length = f2.length) :
    (f2.length + 2 ≤ f1.length →
      trimStage ⟨f1, s1, f2, s2⟩ =
        some ⟨(dropMaxMin f1 s1).1, (dropMaxMin f1 s1).2, f2, s2⟩ ∧
      (dropMaxMin f1 s1).1.length + 2 = f1.length ∧
      (dropMaxMin f1 s1).2.length + 2 = s1.length) ∧
    (f1.length + 2 ≤ f2.length →
      trimStage ⟨f1, s1, f2, s2⟩ =
        some ⟨f1, s1, (dropMaxMin f2 s2).1, (dropMaxMin f2 s2).2⟩ ∧
      (dropMaxMin f2 s2).1.length + 2 = f2.length ∧
      (dropMaxMin f2 s2).2.length + 2 = s2.length) :=
  ⟨fun hlen => trimStage_left f1 s1 f2 s2 hlen hs1,
    fun hlen => trimStage_right f1 s1 f2 s2 hlen hs2⟩

/-- Claim C5 (amended): crossCalib with deconvolve set and no paz reports
    the missing-paz error and returns exactly the whiteCalib result on the
    optionally highpass-filtered copies with no deconvolution applied; the
    call completes exactly when that whiteCalib call completes, and the
    latter can itself raise on a spectral length mismatch, so the original
    unconditional no-raised-failure part of the claim fails. -/
theorem crossCalib_missing_paz (fft : List ℚ → List QC) (hp : ℚ → Trace → Trace)
    (sim : Paz → Trace → Trace) (m r : Trace) (ff : Option ℚ) (sO : Option ℕ) :
    crossCalib fft hp sim m r ⟨ff, true, none, sO⟩ =
      (true, whiteCalib fft (applyFfilter hp ff m) (applyFfilter hp ff r) sO) := rfl

/-- Claim C3: for traces of equal length and sampling rate whose response
    spectrum is the monitor spectrum scaled by a real constant k, the
    unsmoothed transfer function is the elementwise quotient, it equals k
    at every aligned bin whose monitor value is nonzero, and whiteCalib
    returns it smoothed over the untouched frequency axis with no warning. -/
theorem whiteCalib_proportional_spectra (fft : List ℚ → List QC) (m r : Trace)
    (k : ℚ) (sO : Option ℕ)
    (hlen : m.data.length = r.data.length)
    (hsr : m.sampling_rate = r.sampling_rate)
    (hspec : fft r.data = (fft m.data).map (QC.scale k)) :
    npDiv (fft r.data) (fft m.data)
        = some ((fft m.data).map fun z => QC.div (QC.scale k z) z) ∧
    (∀ z : QC, z ≠ 0 → QC.div (QC.scale k z) z = ⟨k, 0⟩) ∧
    whiteCalib fft m r sO = (false,
      some (smoothMA ((fft m.data).map fun z => QC.div (QC.scale k z) z)
          (smoothWin sO (fft m.data).length),
        fftfreq (fft m.data).length (1 / m.sampling_rate))) := by
  have hlen2 : (fft r.data).length = (fft m.data).length := by
    rw [hspec, List.length_map]
  have hax : fftfreq (fft m.data).length (1 / m.sampling_rate)
      = fftfreq (fft r.data).length (1 / r.sampling_rate) := by
    rw [hlen2, hsr]
  have hdiv : npDiv (fft r.data) (fft m.data)
      = some ((fft m.data).map fun z => QC.div (QC.scale k z) z) := by
    rw [npDiv_of_length_eq hlen2, hspec, zipWith_div_scale]
  refine ⟨hdiv, fun z hz => QC.div_scale_self k z hz, ?_⟩
  rw [whiteCalib_identical_axes fft m r sO hax, hdiv]
  rw [Option.map_some']
  rw [fftfreq_length]

/-- Claim C10: whenever whiteCalib returns a pair (H, f), the frequency
    axis f is derived from the monitor trace: it is a sublist (possibly
    trimmed form) of the monitor fftfreq axis, and on the no-mismatch path
    it is that axis itself; the response axis is never returned. -/
theorem whiteCalib_axis_from_monitor (fft : List ℚ → List QC) (m r : Trace)
    (sO : Option ℕ) (H : List QC) (f : List ℚ)
    (h : (whiteCalib fft m r sO).2 = some (H, f)) :
    List.Sublist f (fftfreq (fft m.data).length (1 / m.sampling_rate)) ∧
    ((whiteCalib fft m r sO).1 = false →
      f = fftfreq (fft m.data).length (1 / m.sampling_rate)) := by
  by_cases hm : mismatchB (fftfreq (fft m.data).length (1 / m.sampling_rate))
      (fftfreq (fft r.data).length (1 / r.sampling_rate)) = true
  · rw [whiteCalib_of_mismatch fft m r sO hm] at h ⊢
    simp only []
    cases hal : alignStep ⟨fftfreq (fft m.data).length (1 / m.sampling_rate),
        fft m.data, fftfreq (fft r.data).length (1 / r.sampling_rate),
        fft r.data⟩ with
    | none =>
      rw [hal] at h
      simp at h
    | some p =>
      rw [hal] at h
      rw [show (some p).bind (fun p => (npDiv p.s2 p.s1).map fun H =>
        (smoothMA H (smoothWin sO p.f1.length), p.f1)) =
        (npDiv p.s2 p.s1).map fun H =>
          (smoothMA H (smoothWin sO p.f1.length), p.f1) from rfl] at h
      cases hd : npDiv p.s2 p.s1 with
      | none => rw [hd] at h; simp at h
      | some Hd =>
        rw [hd, Option.map_some', Option.some.injEq, Prod.mk.injEq] at h
        obtain ⟨_, hf⟩ := h
        subst hf
        exact ⟨alignStep_f1_sublist hal, fun hc => by cases hc⟩
  · have hm' : mismatchB (fftfreq (fft m.data).length (1 / m.sampling_rate))
        (fftfreq (fft r.data).length (1 / r.sampling_rate)) = false := by
      simpa using hm
    rw [whiteCalib_of_no_mismatch fft m r sO hm'] at h
    simp only [] at h
    cases hd : npDiv (fft r.data) (fft m.data) with
    | none => rw [hd] at h; simp at h
    | some Hd =>
      rw [hd, Option.map_some', Option.some.injEq, Prod.mk.injEq] at h
      obtain ⟨_, hf⟩ := h
      subst hf
      exact ⟨List.Sublist.refl _, fun _ => rfl⟩

/-- Claim C2: whenever len H = len f, the bin indices inorm (closest to
    fnorm, default 1 Hz) and imin (closest to fmin, default 0.001 Hz)
    exist and satisfy imin < inorm, Hparameters returns exactly the triple
    (f[indx], 1 / (2 * Amp[indx]), |H[inorm]|) with
    indx = imin + argmin of |Re H| over the window from imin to inorm and
    Amp[indx] = |H[indx]| / |H[inorm]|. -/
theorem Hparameters_formula (H : List QC) (f : List ℚ) (o : HOpts)
    (inorm imin : ℕ)
    (hlen : H.length = f.length)
    (hin : argminIdx (f.map fun x => |x - o.fnorm.getD 1|) = some inorm)
    (him : argminIdx (f.map fun x => |x - o.fmin.getD (1 / 1000)|) = some imin)
    (hlt : imin < inorm) :
    Hparameters H f o = some (
      f.getD ((argminIdx (((H.drop imin).take (inorm - imin)).map
          fun z => |z.re|)).getD 0 + imin) 0,
      1 / (2 * (QC.abs (H.getD ((argminIdx (((H.drop imin).take (inorm - imin)).map
          fun z => |z.re|)).getD 0 + imin) 0) / QC.abs (H.getD inorm 0))),
      QC.abs (H.getD inorm 0)) := by
  have hinorm_lt : inorm < f.length := by
    have h1 := argminIdx_lt hin
    simpa using h1
  have hinorm_H : inorm < H.length := by omega
  have hslice_ne : ((H.drop imin).take (inorm - imin)).map (fun z => |z.re|) ≠ [] := by
    have h1 : ((H.drop imin).take (inorm - imin)).length
        = min (inorm - imin) (H.length - imin) := by
      rw [List.length_take, List.length_drop]
    intro hx
    have h2 := congrArg List.length hx
    simp only [List.length_map, List.length_nil, h1] at h2
    omega
  obtain ⟨j, hj⟩ := argminIdx_of_ne_nil hslice_ne
  have hjlt : j < inorm - imin := by
    have h1 := argminIdx_lt hj
    have h2 : ((H.drop imin).take (inorm - imin)).length
        = min (inorm - imin) (H.length - imin) := by
      rw [List.length_take, List.length_drop]
    simp only [List.length_map, h2] at h1
    omega
  have hidx_lt : j + imin < H.length := by omega
  have hidx_lt_f : j + imin < f.length := by omega
  rw [hj]
  simp only [Option.getD_some]
  simp only [Hparameters, hin, him, hj, Option.bind_eq_bind, Option.some_bind]
  rw [get?_eq_some_getD H inorm 0 hinorm_H]
  simp only [Option.some_bind]
  rw [get?_eq_some_getD f (j + imin) 0 hidx_lt_f]
  simp only [Option.some_bind]
  rw [get?_eq_some_getD H (j + imin) 0 hidx_lt]
  simp only [Option.some_bind, Option.pure_def]

/-- Claim C9: when the bin index closest to fmin is at or above the bin
    index closest to fnorm, the search slice of H is empty, the numpy
    argmin over it raises, and Hparameters fails (returns none) instead of
    producing a parameter triple. -/
theorem Hparameters_empty_window (H : List QC) (f : List ℚ) (o : HOpts)
    (inorm imin : ℕ)
    (hin : argminIdx (f.map fun x => |x - o.fnorm.getD 1|) = some inorm)
    (him : argminIdx (f.map fun x => |x - o.fmin.getD (1 / 1000)|) = some imin)
    (hle : inorm ≤ imin) :
    Hparameters H f o = none := by
  have hsub : inorm - imin = 0 := by omega
  simp only [Hparameters, hin, him, Option.bind_eq_bind, Option.some_bind, hsub,
    List.take_zero, List.map_nil]
  rfl

/-- Claim C8: the caller-owned monitor and response trace objects are
    unchanged when whiteCalib or crossCalib returns: in the explicit
    object store, the entries at the caller references are identical
    before and after the call; filtering, deconvolution and all spectral
    work target only the internal copies appended at entry. -/
theorem caller_traces_unchanged (fft : List ℚ → List QC) (hp : ℚ → Trace → Trace)
    (sim : Paz → Trace → Trace) (σ : List Trace) (mi ri : ℕ) (o : CrossOpts)
    (sO : Option ℕ) (hmi : mi < σ.length) (hri : ri < σ.length) :
    ((whiteCalibS fft σ mi ri sO).1.get? mi = σ.get? mi ∧
      (whiteCalibS fft σ mi ri sO).1.get? ri = σ.get? ri) ∧
    ((crossCalibS fft hp sim σ mi ri o).1.get? mi = σ.get? mi ∧
      (crossCalibS fft hp sim σ mi ri o).1.get? ri = σ.get? ri) := by
  constructor
  · exact ⟨get?_append_left σ _ mi hmi, get?_append_left σ _ ri hri⟩
  · have key : ∀ i, i < σ.length →
        (crossCalibS fft hp sim σ mi ri o).1.get? i = σ.get? i := by
      intro i hi
      obtain ⟨ff, dec, paz, sm⟩ := o
      have happ2 : ∀ a b : Trace, ((σ ++ [a]) ++ [b]).get? i = σ.get? i := by
        intro a b
        refine (get?_append_left _ _ i ?_).trans (get?_append_left σ _ i hi)
        simp only [List.length_append, List.length_cons, List.length_nil]
        omega
      cases ff with
      | none =>
        cases dec with
        | false =>
          simp only [crossCalibS]
          refine (get?_append_left _ _ i ?_).trans (happ2 _ _)
          simp only [List.length_append, List.length_cons, List.length_nil]
          omega
        | true =>
          cases paz with
          | none =>
            simp only [crossCalibS]
            refine (get?_append_left _ _ i ?_).trans (happ2 _ _)
            simp only [List.length_append, List.length_cons, List.length_nil]
            omega
          | some pz =>
            simp only [crossCalibS]
            refine (get?_append_left _ _ i ?_).trans
              ((get?_set_ne _ _ i _ (by omega)).trans (happ2 _ _))
            simp only [List.length_set, List.length_append, List.length_cons,
              List.length_nil]
            omega
      | some fr =>
        cases dec with
        | false =>
          simp only [crossCalibS]
          refine (get?_append_left _ _ i ?_).trans
            ((get?_set_ne _ _ i _ ?_).trans
              ((get?_set_ne _ _ i _ (by omega)).trans (happ2 _ _)))
          · simp only [List.length_set, List.length_append, List.length_cons,
              List.length_nil]
            omega
          · simp only [List.length_append, List.length_cons, List.length_nil]
            omega
        | true =>
          cases paz with
          | none =>
            simp only [crossCalibS]
            refine (get?_append_left _ _ i ?_).trans
              ((get?_set_ne _ _ i _ ?_).trans
                ((get?_set_ne _ _ i _ (by omega)).trans (happ2 _ _)))
            · simp only [List.length_set, List.length_append, List.length_cons,
                List.length_nil]
              omega
            · simp only [List.length_append, List.length_cons, List.length_nil]
              omega
          | some pz =>
            simp only [crossCalibS]
            refine (get?_append_left _ _ i ?_).trans
              ((get?_set_ne _ _ i _ (by omega)).trans
                ((get?_set_ne _ _ i _ ?_).trans
                  ((get?_set_ne _ _ i _ (by omega)).trans (happ2 _ _))))
            · simp only [List.length_set, List.length_append, List.length_cons,
                List.length_nil]
              omega
            · simp only [List.length_append, List.length_cons, List.length_nil]
              omega
    exact ⟨key mi hmi, key ri hri⟩

/- Witnesses and counterexamples on concrete inputs. The rational
   arithmetic of the Batteries library is marked irreducible for
   elaboration performance; kernel reduction is unaffected, and the
   local attribute below only re-enables unfolding so that decide can
   evaluate the embedded pipeline on concrete rational inputs. -/

section

set_option allowUnsafeReducibility true

attribute [local semireducible] Rat.add Rat.sub Rat.mul Rat.inv

set_option maxRecDepth 40000

theorem whiteCalib_length_invariant_witness :
    retLenOk (whiteCalib fftId ⟨[1, 1, 1, 1], 1⟩ ⟨[1, 1, 1], 1⟩ none).2 = true ∧
    (mismatchB (fftfreq (fftId [1, 1, 1, 1]).length (1 / 1))
        (fftfreq (fftId [1, 1, 1]).length (1 / 1)) = true →
      alignedOk (alignStep ⟨fftfreq (fftId [1, 1, 1, 1]).length (1 / 1),
        fftId [1, 1, 1, 1], fftfreq (fftId [1, 1, 1]).length (1 / 1),
        fftId [1, 1, 1]⟩) = true) :=
  whiteCalib_length_invariant fftId ⟨[1, 1, 1, 1], 1⟩ ⟨[1, 1, 1], 1⟩ none (by decide)

theorem whiteCalib_length_invariant_cex :
    (whiteCalib fftId ⟨[1, 1, 1, 1, 1, 1, 1, 1], 100⟩ ⟨[1, 1, 1, 1], 100⟩ none).2
        = none ∧
    retLenOk (whiteCalib fftId ⟨[1, 1, 1, 1, 1, 1, 1, 1], 100⟩
        ⟨[1, 1, 1, 1], 100⟩ none).2 = false := by decide

theorem trim_single_pass_witness :
    (trimStage ⟨[0, 1, -1, 2], [⟨1, 0⟩, ⟨1, 0⟩, ⟨1, 0⟩, ⟨1, 0⟩], [], []⟩ =
      some ⟨(dropMaxMin [0, 1, -1, 2] [⟨1, 0⟩, ⟨1, 0⟩, ⟨1, 0⟩, ⟨1, 0⟩]).1,
        (dropMaxMin [0, 1, -1, 2] [⟨1, 0⟩, ⟨1, 0⟩, ⟨1, 0⟩, ⟨1, 0⟩]).2, [], []⟩ ∧
    (dropMaxMin [0, 1, -1, 2] [⟨1, 0⟩, ⟨1, 0⟩, ⟨1, 0⟩, ⟨1, 0⟩]).1.length + 2 = 4 ∧
    (dropMaxMin [0, 1, -1, 2] [⟨1, 0⟩, ⟨1, 0⟩, ⟨1, 0⟩, ⟨1, 0⟩]).2.length + 2 = 4) ∧
    (trimStage ⟨[], [], [0, 1, -1, 2], [⟨1, 0⟩, ⟨1, 0⟩, ⟨1, 0⟩, ⟨1, 0⟩]⟩ =
      some ⟨[], [], (dropMaxMin [0, 1, -1, 2] [⟨1, 0⟩, ⟨1, 0⟩, ⟨1, 0⟩, ⟨1, 0⟩]).1,
        (dropMaxMin [0, 1, -1, 2] [⟨1, 0⟩, ⟨1, 0⟩, ⟨1, 0⟩, ⟨1, 0⟩]).2⟩ ∧
    (dropMaxMin [0, 1, -1, 2] [⟨1, 0⟩, ⟨1, 0⟩, ⟨1, 0⟩, ⟨1, 0⟩]).1.length + 2 = 4 ∧
    (dropMaxMin [0, 1, -1, 2] [⟨1, 0⟩, ⟨1, 0⟩, ⟨1, 0⟩, ⟨1, 0⟩]).2.length + 2 = 4) := by
  have h := trim_single_pass [0, 1, -1, 2] [⟨1, 0⟩, ⟨1, 0⟩, ⟨1, 0⟩, ⟨1, 0⟩] [] []
    (by decide) (by decide)
  have hmir := trim_single_pass [] [] [0, 1, -1, 2] [⟨1, 0⟩, ⟨1, 0⟩, ⟨1, 0⟩, ⟨1, 0⟩]
    (by decide) (by decide)
  have h2 := h.1 (by decide)
  have h3 := hmir.2 (by decide)
  exact ⟨⟨h2.1, h2.2.1.trans (by decide), h2.2.2.trans (by decide)⟩,
    ⟨h3.1, h3.2.1.trans (by decide), h3.2.2.trans (by decide)⟩⟩

theorem trim_single_pass_cex :
    (alignStep ⟨fftfreq 8 (1 / 100), fftId [1, 1, 1, 1, 1, 1, 1, 1],
        fftfreq 4 (1 / 100), fftId [1, 1, 1, 1]⟩).isSome = true ∧
    alignedOk (alignStep ⟨fftfreq 8 (1 / 100), fftId [1, 1, 1, 1, 1, 1, 1, 1],
        fftfreq 4 (1 / 100), fftId [1, 1, 1, 1]⟩) = false := by decide

theorem crossCalib_missing_paz_cex :
    (crossCalib fftId hpId simId ⟨[1, 1, 1, 1, 1, 1, 1, 1], 100⟩
        ⟨[1, 1, 1, 1], 100⟩ ⟨none, true, none, none⟩).1 = true ∧
    (crossCalib fftId hpId simId ⟨[1, 1, 1, 1, 1, 1, 1, 1], 100⟩
        ⟨[1, 1, 1, 1], 100⟩ ⟨none, true, none, none⟩).2.2 = none := by decide

theorem whiteCalib_identical_axes_witness :
    (whiteCalib fftId ⟨[1, 1], 1⟩ ⟨[2, 2], 1⟩ none).1 = false ∧
    (whiteCalib fftId ⟨[1, 1], 1⟩ ⟨[2, 2], 1⟩ none).2
      = some ([⟨2, 0⟩, ⟨2, 0⟩], [0, -(1 / 2)]) := by
  have h := whiteCalib_identical_axes fftId ⟨[1, 1], 1⟩ ⟨[2, 2], 1⟩ none (by decide)
  rw [h]
  exact ⟨rfl, by decide⟩

theorem aligner_mismatch_trigger_witness :
    mismatchB [0, 1, -1] [0, 1, -2] = true ∧
    filterStage ⟨[0, 1, -1], [⟨1, 0⟩, ⟨1, 0⟩, ⟨1, 0⟩], [0, 1, -2],
        [⟨1, 0⟩, ⟨1, 0⟩, ⟨1, 0⟩]⟩ = some ⟨[0], [⟨1, 0⟩], [0], [⟨1, 0⟩]⟩ := by
  have h := aligner_mismatch_trigger [0, 1, -1] [⟨1, 0⟩, ⟨1, 0⟩, ⟨1, 0⟩]
    [0, 1, -2] [⟨1, 0⟩, ⟨1, 0⟩, ⟨1, 0⟩] (by decide) (by decide) (by decide)
    (by decide)
  exact ⟨h.1.mpr (by decide), h.2.trans (by decide)⟩

theorem aligner_mismatch_trigger_cex :
    (fftfreq 3 (1 / 1)).length = (fftfreq 3 (1 / 2)).length ∧
    fftfreq 3 (1 / 1) ≠ fftfreq 3 (1 / 2) ∧
    mismatchB (fftfreq 3 (1 / 1)) (fftfreq 3 (1 / 2)) = false ∧
    (whiteCalib fftId ⟨[1, 1, 1], 1⟩ ⟨[1, 1, 1], 2⟩ none).1 = false := by decide

theorem whiteCalib_proportional_spectra_witness :
    npDiv (fftId [3, 6]) (fftId [1, 2]) = some [⟨3, 0⟩, ⟨3, 0⟩] ∧
    QC.div (QC.scale 3 ⟨1, 0⟩) ⟨1, 0⟩ = ⟨3, 0⟩ ∧
    whiteCalib fftId ⟨[1, 2], 1⟩ ⟨[3, 6], 1⟩ none
      = (false, some ([⟨3, 0⟩, ⟨3, 0⟩], [0, -(1 / 2)])) := by
  have h := whiteCalib_proportional_spectra fftId ⟨[1, 2], 1⟩ ⟨[3, 6], 1⟩ 3 none
    (by decide) (by decide) (by decide)
  exact ⟨h.1.trans (by decide), h.2.1 ⟨1, 0⟩ (by decide), h.2.2.trans (by decide)⟩

theorem Hparameters_empty_window_witness :
    Hparameters [⟨1, 0⟩, ⟨1, 0⟩] [1, 1 / 1000] ⟨none, none⟩ = none :=
  Hparameters_empty_window [⟨1, 0⟩, ⟨1, 0⟩] [1, 1 / 1000] ⟨none, none⟩ 0 1
    (by decide) (by decide) (by decide)

theorem whiteCalib_axis_from_monitor_witness :
    List.Sublist [0, -(1 / 2)] (fftfreq (fftId [1, 1]).length (1 / (1 : ℚ))) ∧
    ((whiteCalib fftId ⟨[1, 1], 1⟩ ⟨[2, 2], 1⟩ none).1 = false →
      [0, -(1 / 2)] = fftfreq (fftId [1, 1]).length (1 / (1 : ℚ))) :=
  whiteCalib_axis_from_monitor fftId ⟨[1, 1], 1⟩ ⟨[2, 2], 1⟩ none
    [⟨2, 0⟩, ⟨2, 0⟩] [0, -(1 / 2)] (by decide)

theorem caller_traces_unchanged_witness :
    ((whiteCalibS fftId [⟨[1], 1⟩, ⟨[2], 1⟩] 0 1 none).1.get? 0
        = [(⟨[1], 1⟩ : Trace), ⟨[2], 1⟩].get? 0 ∧
      (whiteCalibS fftId [⟨[1], 1⟩, ⟨[2], 1⟩] 0 1 none).1.get? 1
        = [(⟨[1], 1⟩ : Trace), ⟨[2], 1⟩].get? 1) ∧
    ((crossCalibS fftId hpId simId [⟨[1], 1⟩, ⟨[2], 1⟩] 0 1
          ⟨some 1, true, some ⟨[], [], 1⟩, none⟩).1.get? 0
        = [(⟨[1], 1⟩ : Trace), ⟨[2], 1⟩].get? 0 ∧
      (crossCalibS fftId hpId simId [⟨[1], 1⟩, ⟨[2], 1⟩] 0 1
          ⟨some 1, true, some ⟨[], [], 1⟩, none⟩).1.get? 1
        = [(⟨[1], 1⟩ : Trace), ⟨[2], 1⟩].get? 1) :=
  caller_traces_unchanged fftId hpId simId [⟨[1], 1⟩, ⟨[2], 1⟩] 0 1
    ⟨some 1, true, some ⟨[], [], 1⟩, none⟩ none (by decide) (by decide)

theorem Hparameters_formula_witness :
    Hparameters [⟨1, 0⟩, ⟨1, 0⟩, ⟨1, 0⟩] [0, 1 / 100, 1] ⟨none, none⟩
      = some (0, 1 / 2, 1) := by
  have h := Hparameters_formula [⟨1, 0⟩, ⟨1, 0⟩, ⟨1, 0⟩] [0, 1 / 100, 1]
    ⟨none, none⟩ 2 0 (by decide) (by decide) (by decide) (by decide)
  rw [h]
  rw [show ((argminIdx (List.map (fun z => |z.re|) (List.take (2 - 0)
      (List.drop 0 [(⟨1, 0⟩ : QC), ⟨1, 0⟩, ⟨1, 0⟩])))).getD 0 + 0) = 0 from by decide]
  rw [show ([(0 : ℚ), 1 / 100, 1].getD 0 0) = 0 from by decide]
  rw [show ([(⟨1, 0⟩ : QC), ⟨1, 0⟩, ⟨1, 0⟩].getD 0 0) = ⟨1, 0⟩ from by decide]
  rw [show ([(⟨1, 0⟩ : QC), ⟨1, 0⟩, ⟨1, 0⟩].getD 2 0) = ⟨1, 0⟩ from by decide]
  have e5 : QC.abs ⟨1, 0⟩ = 1 := by
    unfold QC.abs
    norm_num [Real.sqrt_one]
  rw [e5]
  norm_num

end
